import Mathlib

/-!
Verification of the brainfuck interpreter crate: operator model
(`src/operators.rs`), parser (`src/ast.rs`), tape storage
(`src/storage.rs`) and the tree-walking machine (`src/machine.rs`).
Rust machine integers are embedded as `Nat` with explicit wraparound
(`% 256` for the `u8` cells); `Vec` indexing out of bounds (a Rust task
failure) is embedded as an `Option`/`panic` outcome; the fueled
interpreter returns `none` when the fuel bound is exhausted, modelling a
run that has not yet terminated.
-/

namespace BF

/-- The operator enum from `src/operators.rs`. `Nop` carries the
unrecognized token (a one-character string in the source, embedded as a
list of characters); `Sub` owns the parsed body of a `[...]` loop.
The Rust `Ast` tuple struct is a plain wrapper around the operator
vector, embedded here directly as `List Operator`. -/
inductive Operator : Type where
  | Incr : Operator
  | Decr : Operator
  | Prev : Operator
  | Next : Operator
  | Put : Operator
  | Get : Operator
  | Skip : Operator
  | Loop : Operator
  | Nop : List Char → Operator
  | Sub : List Operator → Operator

/-- The parsed representation of a program source (`Ast` in `src/ast.rs`). -/
abbrev Ast := List Operator

/-- `FromStr for Operator` (`src/operators.rs`): the total map from a
one-character token to an operator; every unrecognized character becomes
`Nop` carrying that character. -/
def Operator.from_str (c : Char) : Operator :=
  if c = '+' then .Incr
  else if c = '-' then .Decr
  else if c = '<' then .Prev
  else if c = '>' then .Next
  else if c = '[' then .Skip
  else if c = ']' then .Loop
  else if c = '.' then .Put
  else if c = ',' then .Get
  else .Nop [c]

/-- Parser state: the stack of previously-open contexts (top first; the
Rust code pushes and pops at the vector's end) and the context currently
being built. -/
abbrev PCtx := List (List Operator) × List Operator

/-- One character of `Ast::parse_str` (`src/ast.rs`): `[` pushes the
current context and opens an empty one; `]` wraps the current context in
a `Sub` and pops, failing if the stack is empty; every other token is
appended to the current context. -/
def parseStep (acc : PCtx) (c : Char) : Except String PCtx :=
  match Operator.from_str c with
  | .Skip => .ok (acc.2 :: acc.1, ([] : List Operator))
  | .Loop =>
    match acc.1 with
    | [] => .error "Unmatched `]`."
    | prev :: rest => .ok (rest, prev ++ [.Sub acc.2])
  | op => .ok (acc.1, acc.2 ++ [op])

/-- The character loop of `Ast::parse_str`, threading the parser state. -/
def parseChars : List Char → PCtx → Except String PCtx
  | [], acc => .ok acc
  | c :: cs, acc =>
    match parseStep acc c with
    | .error e => .error e
    | .ok acc2 => parseChars cs acc2

/-- `Ast::parse_str` (`src/ast.rs`): run the character loop from empty
state; a non-empty stack at end of input is one or more unmatched `[`. -/
def Ast.parse_str (source : List Char) : Except String Ast :=
  match parseChars source ([], []) with
  | .error e => .error e
  | .ok (stack, ops) => if stack.isEmpty then .ok ops else .error "Unmatched `[`."

/-- Outcome of the classic balanced-parenthesis scan. -/
inductive BracketCheck : Type where
  | balanced : BracketCheck
  | extraClose : BracketCheck
  | extraOpen : BracketCheck
deriving DecidableEq

/-- Modelled from the spec: the classic balanced-parenthesis check over
the `[` and `]` characters of the source, with a depth counter; a `]` at
depth zero is an unmatched closing bracket, a positive depth at end of
input is an unmatched opening bracket. -/
def checkBrackets : List Char → Nat → BracketCheck
  | [], 0 => .balanced
  | [], _ + 1 => .extraOpen
  | c :: cs, d =>
    if c = '[' then checkBrackets cs (d + 1)
    else if c = ']' then
      match d with
      | 0 => .extraClose
      | d + 1 => checkBrackets cs d
    else checkBrackets cs d

mutual

/-- `fmt::Show for Operator` (`src/operators.rs`): each operator's text,
with `Nop` printing its stored token and `Sub` printing `[body]`. -/
def Operator.show : Operator → List Char
  | .Incr => ['+']
  | .Decr => ['-']
  | .Prev => ['<']
  | .Next => ['>']
  | .Skip => ['[']
  | .Loop => [']']
  | .Put => ['.']
  | .Get => [',']
  | .Nop s => s
  | .Sub body => '[' :: (showOps body ++ [']'])

/-- `fmt::Show for Ast` (`src/ast.rs`): the concatenation of the
renderings of the operators in sequence. -/
def showOps : List Operator → List Char
  | [] => []
  | op :: rest => Operator.show op ++ showOps rest

end

mutual

/-- `true` when an operator is not one of the transient loop-delimiter
variants `Skip` and `Loop`, recursively through `Sub` bodies. -/
def opClean : Operator → Bool
  | .Skip => false
  | .Loop => false
  | .Sub body => opsClean body
  | _ => true

/-- `opClean` over a whole operator sequence. -/
def opsClean : List Operator → Bool
  | [] => true
  | op :: rest => opClean op && opsClean rest

end

/-- `true` when `c` is none of the eight significant characters, so that
`Operator::from_str` turns it into a `Nop`. -/
def isComment (c : Char) : Bool :=
  !(c = '+' || c = '-' || c = '<' || c = '>' ||
    c = '[' || c = ']' || c = '.' || c = ',')

mutual

/-- Well-formedness of operators reachable from parsing: no transient
`Skip`/`Loop`, and every `Nop` stores exactly the one-character token of
a comment character. -/
def wfOp : Operator → Bool
  | .Incr => true
  | .Decr => true
  | .Prev => true
  | .Next => true
  | .Put => true
  | .Get => true
  | .Skip => false
  | .Loop => false
  | .Nop s =>
    match s with
    | [c] => isComment c
    | _ => false
  | .Sub body => wfOps body

/-- `wfOp` over a whole operator sequence. -/
def wfOps : List Operator → Bool
  | [] => true
  | op :: rest => wfOp op && wfOps rest

end

/-- `VectorTape<u8>` (`src/storage.rs`): a `Vec` of cells and the head
position. Cell values are bytes embedded as `Nat` (kept below 256 by the
wrapping arithmetic); the head is the `int` field `cur`. -/
structure VectorTape : Type where
  storage : List Nat
  cur : Int
deriving DecidableEq

/-- `VectorTape::new` (`src/storage.rs`): 30,000 zeroed cells, head at 0. -/
def VectorTape.new : VectorTape :=
  { storage := List.replicate 30000 0, cur := 0 }

/-- `VectorTape::wind` (`src/storage.rs`): `self.cur = max(0, self.cur + offset)`. -/
def VectorTape.wind (t : VectorTape) (offset : Int) : VectorTape :=
  { t with cur := max 0 (t.cur + offset) }

/-- The index used by `VectorTape::cell`:
`self.cur.to_uint().unwrap_or(0)` — a negative head falls back to 0,
exactly as `Int.toNat` does. -/
def VectorTape.cellIndex (t : VectorTape) : Nat :=
  t.cur.toNat

/-- `VectorTape::cell` (`src/storage.rs`) reads
`self.storage.get_mut(index)`; `none` embeds the out-of-bounds `Vec`
indexing failure (the enclosing Rust task fails). -/
def VectorTape.cellGet (t : VectorTape) : Option Nat :=
  t.storage.get? t.cellIndex

/-- Wrapping `u8` increment: `*v += 1` on a byte cell. -/
def wrapInc (v : Nat) : Nat := (v + 1) % 256

/-- Wrapping `u8` decrement: `*v -= 1` on a byte cell. -/
def wrapDec (v : Nat) : Nat := (v + 255) % 256

/-- The state the interpreter threads: the `Machine` fields `tape` and
`pc` (`src/machine.rs`), plus the process's byte streams (`stdin` as the
remaining input bytes, `stdout` as the bytes written so far), which the
Rust code reaches through `stdin_raw`/`stdout_raw`. -/
structure MState : Type where
  tape : VectorTape
  pc : Nat
  input : List Nat
  output : List Nat
deriving DecidableEq

/-- `Tape::mutate` on the machine's tape: apply `f` to the current cell
in place; `none` embeds the out-of-bounds indexing failure of `cell`. -/
def mutateCell (st : MState) (f : Nat → Nat) : Option MState :=
  match st.tape.cellGet with
  | none => none
  | some v =>
    some { st with
           tape := { st.tape with
                     storage := st.tape.storage.set st.tape.cellIndex (f v) } }

/-- Overwrite the current cell with `v` (the shape `mutateCell` produces
when it succeeds). -/
def writeCell (st : MState) (v : Nat) : MState :=
  { st with
    tape := { st.tape with
              storage := st.tape.storage.set st.tape.cellIndex v } }

/-- Step the program counter past the operator just executed. -/
def advance (st : MState) : MState :=
  { st with pc := st.pc + 1 }

/-- Result of a fueled run: normal return with the executed cycles and
the final state, the `Err` result of `run_program`, or a task failure
(out-of-bounds tape indexing). -/
inductive Outcome : Type where
  | ok : Nat → MState → Outcome
  | err : String → Outcome
  | panic : Outcome
deriving DecidableEq

/-- Add the cycles of an already-executed prefix onto the outcome of the
rest of the run. -/
def addCycles (n : Nat) : Option Outcome → Option Outcome
  | some (.ok c st) => some (.ok (n + c) st)
  | r => r

mutual

/-- The operator loop of `Machine::run_program` (`src/machine.rs`),
entered with the machine's current `pc`: fetch `ops.get(self.pc)`,
execute one operator, bump `cycles` and `pc`, and continue; running past
the end of the sequence returns the accumulated cycles. The fuel bound
decreases on every recursive call; `none` means it ran out. -/
def runFrom : Nat → List Operator → MState → Option Outcome
  | 0, _, _ => none
  | fuel + 1, ops, st =>
    match ops.get? st.pc with
    | none => some (.ok 0 st)
    | some op =>
      match op with
      | .Decr =>
        match mutateCell st wrapDec with
        | none => some .panic
        | some st2 => addCycles 1 (runFrom fuel ops (advance st2))
      | .Incr =>
        match mutateCell st wrapInc with
        | none => some .panic
        | some st2 => addCycles 1 (runFrom fuel ops (advance st2))
      | .Prev =>
        addCycles 1 (runFrom fuel ops (advance { st with tape := st.tape.wind (-1) }))
      | .Next =>
        addCycles 1 (runFrom fuel ops (advance { st with tape := st.tape.wind 1 }))
      | .Get =>
        let b := match st.input with | [] => 0 | x :: _ => x
        match mutateCell { st with input := st.input.tail } (fun _ => b) with
        | none => some .panic
        | some st2 => addCycles 1 (runFrom fuel ops (advance st2))
      | .Put =>
        match st.tape.cellGet with
        | none => some .panic
        | some v =>
          addCycles 1 (runFrom fuel ops (advance { st with output := st.output ++ [v] }))
      | .Sub body =>
        match runLoop fuel body st with
        | none => none
        | some .panic => some .panic
        | some (.err m) => some (.err m)
        | some (.ok c st2) =>
          addCycles (c + 1) (runFrom fuel ops { st2 with pc := st.pc + 1 })
      | _ => addCycles 1 (runFrom fuel ops (advance st))

/-- The `while *self.tape.cell() != 0` loop of the `Sub` branch of
`Machine::run_program`: each pass recursively runs the nested program
from its start (`run_program` resets `self.pc` to 0) and accumulates the
pass's cycles; an inner `Err` returns immediately. -/
def runLoop : Nat → List Operator → MState → Option Outcome
  | fuel, body, st =>
    match st.tape.cellGet with
    | none => some .panic
    | some v =>
      if v = 0 then some (.ok 0 st)
      else
        match fuel with
        | 0 => none
        | fuel + 1 =>
          match runFrom fuel body { st with pc := 0 } with
          | none => none
          | some .panic => some .panic
          | some (.err m) => some (.err m)
          | some (.ok c st2) => addCycles c (runLoop fuel body st2)

end

/-- `Machine::run_program` (`src/machine.rs`): reset `self.pc` to 0 and
run the operator loop. -/
def run_program (fuel : Nat) (program : Ast) (st : MState) : Option Outcome :=
  runFrom fuel program { st with pc := 0 }

/-- The state of `Machine::new` (`src/machine.rs`) together with the
given process byte streams. -/
def Machine.new (input : List Nat) : MState :=
  { tape := VectorTape.new, pc := 0, input := input, output := [] }

/-- Outcome of the instrumented run: like `Outcome`, but a normal return
carries the sequence of operator occurrences actually executed (one
entry per time the interpreter's `cycles += 1` line runs) instead of the
bare count. -/
inductive OutcomeT : Type where
  | ok : List Operator → MState → OutcomeT
  | err : String → OutcomeT
  | panic : OutcomeT

/-- Forget the trace, keeping its length: the cycle count. -/
def OutcomeT.toOutcome : OutcomeT → Outcome
  | .ok tr st => .ok tr.length st
  | .err m => .err m
  | .panic => .panic

/-- Prepend an already-executed trace onto the outcome of the rest of
the run. -/
def addTrace (tr : List Operator) : Option OutcomeT → Option OutcomeT
  | some (.ok tr2 st) => some (.ok (tr ++ tr2) st)
  | r => r

mutual

/-- `runFrom`, instrumented to record each executed operator occurrence:
primitives and comments record themselves, and a `Sub` records the
operators of its passes followed by one occurrence of the `Sub` operator
itself (the `cycles += 1` the `Sub` branch falls through to). -/
def traceFrom : Nat → List Operator → MState → Option OutcomeT
  | 0, _, _ => none
  | fuel + 1, ops, st =>
    match ops.get? st.pc with
    | none => some (.ok [] st)
    | some op =>
      match op with
      | .Decr =>
        match mutateCell st wrapDec with
        | none => some .panic
        | some st2 => addTrace [.Decr] (traceFrom fuel ops (advance st2))
      | .Incr =>
        match mutateCell st wrapInc with
        | none => some .panic
        | some st2 => addTrace [.Incr] (traceFrom fuel ops (advance st2))
      | .Prev =>
        addTrace [.Prev] (traceFrom fuel ops (advance { st with tape := st.tape.wind (-1) }))
      | .Next =>
        addTrace [.Next] (traceFrom fuel ops (advance { st with tape := st.tape.wind 1 }))
      | .Get =>
        let b := match st.input with | [] => 0 | x :: _ => x
        match mutateCell { st with input := st.input.tail } (fun _ => b) with
        | none => some .panic
        | some st2 => addTrace [.Get] (traceFrom fuel ops (advance st2))
      | .Put =>
        match st.tape.cellGet with
        | none => some .panic
        | some v =>
          addTrace [.Put] (traceFrom fuel ops (advance { st with output := st.output ++ [v] }))
      | .Sub body =>
        match traceLoop fuel body st with
        | none => none
        | some .panic => some .panic
        | some (.err m) => some (.err m)
        | some (.ok tr st2) =>
          addTrace (tr ++ [.Sub body]) (traceFrom fuel ops { st2 with pc := st.pc + 1 })
      | op2 => addTrace [op2] (traceFrom fuel ops (advance st))

/-- `runLoop`, instrumented: the passes' traces are concatenated. -/
def traceLoop : Nat → List Operator → MState → Option OutcomeT
  | fuel, body, st =>
    match st.tape.cellGet with
    | none => some .panic
    | some v =>
      if v = 0 then some (.ok [] st)
      else
        match fuel with
        | 0 => none
        | fuel + 1 =>
          match traceFrom fuel body { st with pc := 0 } with
          | none => none
          | some .panic => some .panic
          | some (.err m) => some (.err m)
          | some (.ok tr st2) => addTrace tr (traceLoop fuel body st2)

end

/-- `run_program`, instrumented with the executed-operator trace. -/
def trace_program (fuel : Nat) (program : Ast) (st : MState) : Option OutcomeT :=
  traceFrom fuel program { st with pc := 0 }

mutual

/-- Modelled from the claim's words for the cycle counter: identical to
`runFrom` except that a nested-program operator contributes only the sum
of the cycle counts of its executed passes, absorbing no separate count
of its own. -/
def claimRunFrom : Nat → List Operator → MState → Option Outcome
  | 0, _, _ => none
  | fuel + 1, ops, st =>
    match ops.get? st.pc with
    | none => some (.ok 0 st)
    | some op =>
      match op with
      | .Decr =>
        match mutateCell st wrapDec with
        | none => some .panic
        | some st2 => addCycles 1 (claimRunFrom fuel ops (advance st2))
      | .Incr =>
        match mutateCell st wrapInc with
        | none => some .panic
        | some st2 => addCycles 1 (claimRunFrom fuel ops (advance st2))
      | .Prev =>
        addCycles 1 (claimRunFrom fuel ops (advance { st with tape := st.tape.wind (-1) }))
      | .Next =>
        addCycles 1 (claimRunFrom fuel ops (advance { st with tape := st.tape.wind 1 }))
      | .Get =>
        let b := match st.input with | [] => 0 | x :: _ => x
        match mutateCell { st with input := st.input.tail } (fun _ => b) with
        | none => some .panic
        | some st2 => addCycles 1 (claimRunFrom fuel ops (advance st2))
      | .Put =>
        match st.tape.cellGet with
        | none => some .panic
        | some v =>
          addCycles 1 (claimRunFrom fuel ops (advance { st with output := st.output ++ [v] }))
      | .Sub body =>
        match claimRunLoop fuel body st with
        | none => none
        | some .panic => some .panic
        | some (.err m) => some (.err m)
        | some (.ok c st2) =>
          addCycles c (claimRunFrom fuel ops { st2 with pc := st.pc + 1 })
      | _ => addCycles 1 (claimRunFrom fuel ops (advance st))

/-- The pass loop of the claim-side counter. -/
def claimRunLoop : Nat → List Operator → MState → Option Outcome
  | fuel, body, st =>
    match st.tape.cellGet with
    | none => some .panic
    | some v =>
      if v = 0 then some (.ok 0 st)
      else
        match fuel with
        | 0 => none
        | fuel + 1 =>
          match claimRunFrom fuel body { st with pc := 0 } with
          | none => none
          | some .panic => some .panic
          | some (.err m) => some (.err m)
          | some (.ok c st2) => addCycles c (claimRunLoop fuel body st2)

end

/-- `run_program` as the claim's words describe its cycle counter. -/
def claimRun_program (fuel : Nat) (program : Ast) (st : MState) : Option Outcome :=
  claimRunFrom fuel program { st with pc := 0 }

/-- Project the cycle count out of an outcome. -/
def cyclesOf : Option Outcome → Option Nat
  | some (.ok c _) => some c
  | _ => none

/-- Every byte the state holds — cell values, pending input, produced
output — fits in eight bits. -/
def WFbytes (st : MState) : Prop :=
  (∀ x ∈ st.tape.storage, x < 256) ∧
  (∀ b ∈ st.input, b < 256) ∧
  (∀ b ∈ st.output, b < 256)

/-!
## Theorems

Basic facts about the cell accessors, then the claims in order.
-/

/-- A successful cell read means the head's index is in bounds. -/
theorem cellGet_lt {st : MState} {v : Nat} (h : st.tape.cellGet = some v) :
    st.tape.cellIndex < st.tape.storage.length := by
  rcases List.get?_eq_some.mp h with ⟨hlt, _⟩
  exact hlt

/-- Overwriting the current cell and reading it back. -/
theorem cellGet_writeCell {st : MState} {w : Nat} (v : Nat)
    (h : st.tape.cellGet = some w) :
    (writeCell st v).tape.cellGet = some v := by
  have hlt := cellGet_lt h
  simpa [writeCell, VectorTape.cellGet, VectorTape.cellIndex] using
    List.get?_set_eq_of_lt v hlt

/-- `Tape::mutate` on an in-bounds head rewrites the cell in place. -/
theorem mutateCell_eq {st : MState} {w : Nat} (f : Nat → Nat)
    (h : st.tape.cellGet = some w) :
    mutateCell st f = some (writeCell st (f w)) := by
  simp [mutateCell, h, writeCell]

/-- Winding right `n` times from a non-negative head adds `n` to the
head and leaves the storage untouched. -/
theorem wind_one_iterate (n : Nat) :
    ∀ t : VectorTape, 0 ≤ t.cur →
      (fun t => VectorTape.wind t 1)^[n] t =
        { storage := t.storage, cur := t.cur + n } := by
  induction n with
  | zero => intro t ht; cases t; simp
  | succ n ih =>
    intro t ht
    rw [Function.iterate_succ_apply, ih (t.wind 1) (by simp [VectorTape.wind])]
    simp only [VectorTape.wind]
    congr 1
    omega

/-- C1, evaluated on the code: `VectorTape::<u8>::new()` followed by
30,000 `wind(1)` calls puts the head at index 30000, and `cell()` then
indexes past the end of the 30,000-element storage vector — the read is
an out-of-bounds `Vec` access (a task failure), not a zero: no growth
happens, contradicting both the claim and the type's own documentation. -/
theorem c1_dense_tape_wind_30000_panics :
    ((fun t => VectorTape.wind t 1)^[30000] VectorTape.new).cellGet = none := by
  rw [wind_one_iterate 30000 VectorTape.new (le_refl 0)]
  simp only [VectorTape.cellGet, VectorTape.cellIndex]
  rw [List.get?_eq_none]
  show (List.replicate 30000 0).length ≤ ((0 : Int) + 30000).toNat
  rw [List.length_replicate]
  omega

/-- C8: cell arithmetic wraps — the `Decr` mutation on a cell holding 0
stores 255 (the maximum `u8` value), and the `Incr` mutation on a cell
holding 255 stores 0. -/
theorem c8_cell_wraparound :
    (∀ st : MState, st.tape.cellGet = some 0 →
      mutateCell st wrapDec = some (writeCell st 255) ∧
        (writeCell st 255).tape.cellGet = some 255) ∧
    (∀ st : MState, st.tape.cellGet = some 255 →
      mutateCell st wrapInc = some (writeCell st 0) ∧
        (writeCell st 0).tape.cellGet = some 0) := by
  constructor
  · intro st h
    exact ⟨mutateCell_eq wrapDec h, cellGet_writeCell 255 h⟩
  · intro st h
    exact ⟨mutateCell_eq wrapInc h, cellGet_writeCell 0 h⟩

/-- Witness for C8 on one-cell tapes holding 0 and 255. -/
theorem c8_witness :
    (mutateCell ⟨⟨[0], 0⟩, 0, [], []⟩ wrapDec =
        some (writeCell ⟨⟨[0], 0⟩, 0, [], []⟩ 255) ∧
      (writeCell (⟨⟨[0], 0⟩, 0, [], []⟩ : MState) 255).tape.cellGet = some 255) ∧
    (mutateCell ⟨⟨[255], 0⟩, 0, [], []⟩ wrapInc =
        some (writeCell ⟨⟨[255], 0⟩, 0, [], []⟩ 0) ∧
      (writeCell (⟨⟨[255], 0⟩, 0, [], []⟩ : MState) 0).tape.cellGet = some 0) :=
  ⟨c8_cell_wraparound.1 ⟨⟨[0], 0⟩, 0, [], []⟩ rfl,
   c8_cell_wraparound.2 ⟨⟨[255], 0⟩, 0, [], []⟩ rfl⟩

/-- Running past the end of the operator sequence stops with 0 cycles. -/
theorem runFrom_end {ops : List Operator} {st : MState} (fuel : Nat)
    (hop : ops.get? st.pc = none) :
    runFrom (fuel + 1) ops st = some (.ok 0 st) := by
  rw [runFrom, hop]

/-- One `Decr` step of the operator loop. -/
theorem runFrom_succ_decr {ops : List Operator} {st : MState} (fuel : Nat)
    (hop : ops.get? st.pc = some .Decr) :
    runFrom (fuel + 1) ops st =
      match mutateCell st wrapDec with
      | none => some .panic
      | some st2 => addCycles 1 (runFrom fuel ops (advance st2)) := by
  rw [runFrom, hop]

/-- One `Incr` step of the operator loop. -/
theorem runFrom_succ_incr {ops : List Operator} {st : MState} (fuel : Nat)
    (hop : ops.get? st.pc = some .Incr) :
    runFrom (fuel + 1) ops st =
      match mutateCell st wrapInc with
      | none => some .panic
      | some st2 => addCycles 1 (runFrom fuel ops (advance st2)) := by
  rw [runFrom, hop]

/-- One `Prev` step of the operator loop. -/
theorem runFrom_succ_prev {ops : List Operator} {st : MState} (fuel : Nat)
    (hop : ops.get? st.pc = some .Prev) :
    runFrom (fuel + 1) ops st =
      addCycles 1 (runFrom fuel ops (advance { st with tape := st.tape.wind (-1) })) := by
  rw [runFrom, hop]

/-- One `Next` step of the operator loop. -/
theorem runFrom_succ_next {ops : List Operator} {st : MState} (fuel : Nat)
    (hop : ops.get? st.pc = some .Next) :
    runFrom (fuel + 1) ops st =
      addCycles 1 (runFrom fuel ops (advance { st with tape := st.tape.wind 1 })) := by
  rw [runFrom, hop]

/-- One `Get` step of the operator loop. -/
theorem runFrom_succ_get {ops : List Operator} {st : MState} (fuel : Nat)
    (hop : ops.get? st.pc = some .Get) :
    runFrom (fuel + 1) ops st =
      match mutateCell { st with input := st.input.tail }
          (fun _ => match st.input with | [] => 0 | x :: _ => x) with
      | none => some .panic
      | some st2 => addCycles 1 (runFrom fuel ops (advance st2)) := by
  rw [runFrom, hop]

/-- One `Put` step of the operator loop. -/
theorem runFrom_succ_put {ops : List Operator} {st : MState} (fuel : Nat)
    (hop : ops.get? st.pc = some .Put) :
    runFrom (fuel + 1) ops st =
      match st.tape.cellGet with
      | none => some .panic
      | some v =>
        addCycles 1 (runFrom fuel ops (advance { st with output := st.output ++ [v] })) := by
  rw [runFrom, hop]

/-- One `Sub` step of the operator loop: the pass loop runs, then the
saved program counter is restored and advanced. -/
theorem runFrom_succ_sub {ops : List Operator} {st : MState} (fuel : Nat)
    (body : List Operator) (hop : ops.get? st.pc = some (.Sub body)) :
    runFrom (fuel + 1) ops st =
      match runLoop fuel body st with
      | none => none
      | some .panic => some .panic
      | some (.err m) => some (.err m)
      | some (.ok c st2) => addCycles (c + 1) (runFrom fuel ops { st2 with pc := st.pc + 1 }) := by
  rw [runFrom, hop]

/-- One `Skip` step of the operator loop (a nop at run time). -/
theorem runFrom_succ_skip {ops : List Operator} {st : MState} (fuel : Nat)
    (hop : ops.get? st.pc = some .Skip) :
    runFrom (fuel + 1) ops st = addCycles 1 (runFrom fuel ops (advance st)) := by
  rw [runFrom, hop]

/-- One `Loop` step of the operator loop (a nop at run time). -/
theorem runFrom_succ_loop {ops : List Operator} {st : MState} (fuel : Nat)
    (hop : ops.get? st.pc = some .Loop) :
    runFrom (fuel + 1) ops st = addCycles 1 (runFrom fuel ops (advance st)) := by
  rw [runFrom, hop]

/-- One `Nop` step of the operator loop. -/
theorem runFrom_succ_nop {ops : List Operator} {st : MState} (fuel : Nat)
    (s : List Char) (hop : ops.get? st.pc = some (.Nop s)) :
    runFrom (fuel + 1) ops st = addCycles 1 (runFrom fuel ops (advance st)) := by
  rw [runFrom, hop]

/-- The pass loop fails like `cell` does when the head is out of bounds. -/
theorem runLoop_panic {st : MState} (fuel : Nat) (body : List Operator)
    (h : st.tape.cellGet = none) :
    runLoop fuel body st = some .panic := by
  cases fuel with
  | zero => rw [runLoop.eq_1, h]
  | succ f => rw [runLoop.eq_2, h]

/-- The pass loop stops before a pass once the cell is zero. -/
theorem runLoop_done {st : MState} (fuel : Nat) (body : List Operator)
    (h : st.tape.cellGet = some 0) :
    runLoop fuel body st = some (.ok 0 st) := by
  cases fuel with
  | zero => rw [runLoop.eq_1, h]; rfl
  | succ f => rw [runLoop.eq_2, h]; rfl

/-- A pass of the loop: the nested program runs from its own position 0
and its cycles accumulate. -/
theorem runLoop_pass {st : MState} {v : Nat} (fuel : Nat) (body : List Operator)
    (h : st.tape.cellGet = some v) (hv : v ≠ 0) :
    runLoop (fuel + 1) body st =
      match runFrom fuel body { st with pc := 0 } with
      | none => none
      | some .panic => some .panic
      | some (.err m) => some (.err m)
      | some (.ok c st2) => addCycles c (runLoop fuel body st2) := by
  rw [runLoop.eq_2, h]
  dsimp only
  rw [if_neg hv]

/-- C9: caller-frame effect of a nested-program operator. The first part
is the `Sub` step: when the pass loop returns normally, the caller
continues at `st.pc + 1` — the operator following the `Sub` — whatever
position `pc` the nested run left behind, with the passes' cycles plus
one accumulated. The second part is the fresh counter: every pass of the
nested sequence starts at its own position 0. -/
theorem c9_pc_restored :
    (∀ fuel ops (st : MState) body c st2,
      ops.get? st.pc = some (.Sub body) →
      runLoop fuel body st = some (.ok c st2) →
      runFrom (fuel + 1) ops st =
        addCycles (c + 1) (runFrom fuel ops { st2 with pc := st.pc + 1 })) ∧
    (∀ fuel body (st : MState) v,
      st.tape.cellGet = some v → v ≠ 0 →
      runLoop (fuel + 1) body st =
        match runFrom fuel body { st with pc := 0 } with
        | none => none
        | some .panic => some .panic
        | some (.err m) => some (.err m)
        | some (.ok c st2) => addCycles c (runLoop fuel body st2)) := by
  constructor
  · intro fuel ops st body c st2 hop hloop
    rw [runFrom_succ_sub fuel body hop, hloop]
  · intro fuel body st v h hv
    exact runLoop_pass fuel body h hv

/-- Witness for C9: `[-]+` from cell 1; the nested run ends with its own
counter at 1, and the caller still resumes at the `+` in position 1. -/
theorem c9_witness :
    runFrom 6 [Operator.Sub [Operator.Decr], Operator.Incr] ⟨⟨[1], 0⟩, 0, [], []⟩ =
      addCycles 2 (runFrom 5 [Operator.Sub [Operator.Decr], Operator.Incr]
        ⟨⟨[0], 0⟩, 1, [], []⟩) :=
  c9_pc_restored.1 5 [Operator.Sub [Operator.Decr], Operator.Incr]
    ⟨⟨[1], 0⟩, 0, [], []⟩ [Operator.Decr] 1 ⟨⟨[0], 0⟩, 1, [], []⟩ rfl rfl

/-- C7: executing `,` with the input source exhausted writes zero into
the current cell and execution continues normally with the next
operator; the read produces no error. -/
theorem c7_eof_reads_zero :
    ∀ fuel ops (st : MState), ops.get? st.pc = some .Get → st.input = [] →
      st.tape.cellIndex < st.tape.storage.length →
      runFrom (fuel + 1) ops st =
        addCycles 1 (runFrom fuel ops (advance (writeCell st 0))) ∧
      (writeCell st 0).tape.cellGet = some 0 := by
  intro fuel ops st hop hin hlen
  obtain ⟨v, hv⟩ : ∃ v, st.tape.cellGet = some v := ⟨_, List.get?_eq_get hlen⟩
  have h1 : ({ st with input := st.input.tail } : MState) = st := by
    rcases st with ⟨tape, pc, input, output⟩
    dsimp only at hin
    subst hin
    rfl
  refine ⟨?_, cellGet_writeCell 0 hv⟩
  rw [runFrom_succ_get fuel hop, h1, hin, mutateCell_eq _ hv]

/-- Witness for C7: a `,` on a one-cell tape with no input left. -/
theorem c7_witness :
    runFrom 4 [Operator.Get] ⟨⟨[7], 0⟩, 0, [], []⟩ =
      addCycles 1 (runFrom 3 [Operator.Get]
        (advance (writeCell ⟨⟨[7], 0⟩, 0, [], []⟩ 0))) ∧
    (writeCell (⟨⟨[7], 0⟩, 0, [], []⟩ : MState) 0).tape.cellGet = some 0 :=
  c7_eof_reads_zero 3 [Operator.Get] ⟨⟨[7], 0⟩, 0, [], []⟩ rfl rfl (by decide)

/-- Wrapping decrement of a positive byte is the ordinary decrement. -/
theorem wrapDec_succ {w : Nat} (h : w + 1 < 256) : wrapDec (w + 1) = w := by
  unfold wrapDec
  omega

/-- Running the `[-]` pass loop from a cell holding `v < 256` performs
`v` passes of one `Decr` each, ends with the cell at zero, and reports
`v` cycles; the nested sequence's own counter ends at 1 after the last
pass. -/
theorem runLoop_decr (v : Nat) :
    ∀ (f : Nat) (st : MState), st.tape.cellGet = some v → v < 256 →
      runLoop (f + v + 2) [Operator.Decr] st =
        some (.ok v (if v = 0 then st else { writeCell st 0 with pc := 1 })) := by
  induction v with
  | zero =>
    intro f st h _
    rw [runLoop_done _ _ h]
    simp
  | succ w ih =>
    intro f st h hlt
    have hne : w + 1 ≠ 0 := Nat.succ_ne_zero w
    have hcell0 : ({ st with pc := 0 } : MState).tape.cellGet = some (w + 1) := h
    have hop : [Operator.Decr].get? ({ st with pc := 0 } : MState).pc =
        some Operator.Decr := rfl
    have hstop : [Operator.Decr].get?
        (advance (writeCell ({ st with pc := 0 } : MState) w)).pc = none := rfl
    have hpass : runFrom (f + w + 2) [Operator.Decr] { st with pc := 0 } =
        some (.ok 1 (advance (writeCell ({ st with pc := 0 } : MState) w))) := by
      have e2 : f + w + 2 = (f + w + 1) + 1 := by omega
      rw [e2, runFrom_succ_decr _ hop, mutateCell_eq wrapDec hcell0, wrapDec_succ hlt]
      dsimp only
      rw [runFrom_end (f + w) hstop]
      rfl
    have e1 : f + (w + 1) + 2 = (f + w + 2) + 1 := by omega
    rw [e1, runLoop_pass _ _ h hne, hpass]
    dsimp only
    have hcellA :
        (advance (writeCell ({ st with pc := 0 } : MState) w)).tape.cellGet = some w :=
      cellGet_writeCell w hcell0
    rw [ih f _ hcellA (by omega)]
    by_cases hw : w = 0
    · subst hw
      rfl
    · rw [if_neg hw]
      dsimp only [addCycles]
      congr 2
      · omega
      · simp only [writeCell, advance, VectorTape.cellIndex]
        congr 2
        exact List.set_set w 0 st.tape.storage st.tape.cur.toNat

/-- C4: the program `[-]`, which parses to a single nested-program
operator with body `Decr`, run on any state whose current cell holds a
non-zero byte `v`, terminates within `v + 4` fuel: it reports `v + 1`
cycles (`v` decrements plus the loop operator) and leaves the current
cell at zero. -/
theorem c4_clear_loop_terminates :
    ∀ v (st : MState), 0 < v → v < 256 → st.tape.cellGet = some v →
      Ast.parse_str ['[', '-', ']'] = .ok [Operator.Sub [Operator.Decr]] ∧
      run_program (v + 4) [Operator.Sub [Operator.Decr]] st =
        some (.ok (v + 1) { writeCell st 0 with pc := 1 }) ∧
      ({ writeCell st 0 with pc := 1 } : MState).tape.cellGet = some 0 := by
  intro v st hpos hlt h
  refine ⟨rfl, ?_, cellGet_writeCell 0 h⟩
  unfold run_program
  have hop : [Operator.Sub [Operator.Decr]].get?
      ({ st with pc := 0 } : MState).pc = some (Operator.Sub [Operator.Decr]) := rfl
  have e1 : v + 4 = (v + 3) + 1 := by omega
  rw [e1, runFrom_succ_sub _ _ hop]
  have hcell0 : ({ st with pc := 0 } : MState).tape.cellGet = some v := h
  have e2 : v + 3 = 1 + v + 2 := by omega
  rw [e2, runLoop_decr v 1 _ hcell0 hlt]
  rw [if_neg (Nat.pos_iff_ne_zero.mp hpos)]
  dsimp only
  show addCycles (v + 1) (runFrom (1 + v + 2) [Operator.Sub [Operator.Decr]]
      { writeCell st 0 with pc := 1 }) = some (.ok (v + 1) { writeCell st 0 with pc := 1 })
  have hstop2 : [Operator.Sub [Operator.Decr]].get?
      ({ writeCell st 0 with pc := 1 } : MState).pc = none := rfl
  have e3 : 1 + v + 2 = (1 + v + 1) + 1 := by omega
  rw [e3, runFrom_end (1 + v + 1) hstop2]
  rfl

/-- Witness for C4: `[-]` from a one-cell tape holding 5 stops with the
cell zeroed after 6 cycles. -/
theorem c4_witness :
    Ast.parse_str ['[', '-', ']'] = .ok [Operator.Sub [Operator.Decr]] ∧
    run_program 9 [Operator.Sub [Operator.Decr]] ⟨⟨[5], 0⟩, 0, [], []⟩ =
      some (.ok 6 { writeCell ⟨⟨[5], 0⟩, 0, [], []⟩ 0 with pc := 1 }) ∧
    ({ writeCell (⟨⟨[5], 0⟩, 0, [], []⟩ : MState) 0 with pc := 1 } : MState).tape.cellGet =
      some 0 :=
  c4_clear_loop_terminates 5 ⟨⟨[5], 0⟩, 0, [], []⟩ (by decide) (by decide) rfl

/-- Mapping the trace to its length commutes with prepending a prefix
trace. -/
theorem map_toOutcome_addTrace (tr : List Operator) (r : Option OutcomeT) :
    Option.map OutcomeT.toOutcome (addTrace tr r) =
      addCycles tr.length (Option.map OutcomeT.toOutcome r) := by
  rcases r with _ | x
  · rfl
  · rcases x with ⟨tr2, st⟩ | m | _
    · simp [addTrace, addCycles, OutcomeT.toOutcome, List.length_append]
    · rfl
    · rfl

/-- The interpreter and its instrumented version agree: the cycle count
is the length of the executed-operator trace, and both runs return the
same state or failure. -/
theorem run_eq_trace : ∀ fuel,
    (∀ ops st, runFrom fuel ops st =
      Option.map OutcomeT.toOutcome (traceFrom fuel ops st)) ∧
    (∀ body st, runLoop fuel body st =
      Option.map OutcomeT.toOutcome (traceLoop fuel body st)) := by
  intro fuel
  induction fuel with
  | zero =>
    refine ⟨fun ops st => rfl, fun body st => ?_⟩
    rw [runLoop.eq_1, traceLoop.eq_1]
    cases h : st.tape.cellGet with
    | none => rfl
    | some v =>
      dsimp only
      by_cases hv : v = 0
      · rw [if_pos hv, if_pos hv]
        rfl
      · rw [if_neg hv, if_neg hv]
        rfl
  | succ f ih =>
    obtain ⟨ihF, ihL⟩ := ih
    constructor
    · intro ops st
      rw [runFrom.eq_2, traceFrom.eq_2]
      cases hop : ops.get? st.pc with
      | none => rfl
      | some op =>
        dsimp only
        cases op with
        | Decr =>
          dsimp only
          cases hm : mutateCell st wrapDec with
          | none => rfl
          | some st2 =>
            dsimp only
            rw [map_toOutcome_addTrace, ← ihF]
            rfl
        | Incr =>
          dsimp only
          cases hm : mutateCell st wrapInc with
          | none => rfl
          | some st2 =>
            dsimp only
            rw [map_toOutcome_addTrace, ← ihF]
            rfl
        | Prev =>
          dsimp only
          rw [map_toOutcome_addTrace, ← ihF]
          rfl
        | Next =>
          dsimp only
          rw [map_toOutcome_addTrace, ← ihF]
          rfl
        | Get =>
          dsimp only
          cases hm : mutateCell { st with input := st.input.tail }
              fun _ => match st.input with | [] => 0 | x :: _ => x with
          | none => rfl
          | some st2 =>
            dsimp only
            rw [map_toOutcome_addTrace, ← ihF]
            rfl
        | Put =>
          dsimp only
          cases hp : st.tape.cellGet with
          | none => rfl
          | some v =>
            dsimp only
            rw [map_toOutcome_addTrace, ← ihF]
            rfl
        | Sub body =>
          dsimp only
          rw [ihL]
          cases htr : traceLoop f body st with
          | none => rfl
          | some x =>
            cases x with
            | err m => rfl
            | panic => rfl
            | ok tr st2 =>
              dsimp only
              rw [map_toOutcome_addTrace, ← ihF, Option.map_some']
              dsimp only [OutcomeT.toOutcome]
              rw [List.length_append]
              rfl
        | Skip =>
          dsimp only
          rw [map_toOutcome_addTrace, ← ihF]
          rfl
        | Loop =>
          dsimp only
          rw [map_toOutcome_addTrace, ← ihF]
          rfl
        | Nop s =>
          dsimp only
          rw [map_toOutcome_addTrace, ← ihF]
          rfl
    · intro body st
      rw [runLoop.eq_2, traceLoop.eq_2]
      cases h : st.tape.cellGet with
      | none => rfl
      | some v =>
        dsimp only
        by_cases hv : v = 0
        · rw [if_pos hv, if_pos hv]
          rfl
        · rw [if_neg hv, if_neg hv]
          rw [ihF]
          cases htr : traceFrom f body { st with pc := 0 } with
          | none => rfl
          | some x =>
            cases x with
            | err m => rfl
            | panic => rfl
            | ok tr st2 =>
              dsimp only
              rw [map_toOutcome_addTrace, ← ihL, Option.map_some']
              dsimp only [OutcomeT.toOutcome]

/-- C2 (amended): for every program and state, the cycle count reported
by `run_program` is the length of the trace of operators actually
executed, where primitives and comments each contribute one entry and a
nested-program operator contributes the entries of its executed passes
plus one entry for the nested-program operator itself; errors, failures
and fuel exhaustion agree between the two runs. -/
theorem c2_cycles_count_executed_operators :
    ∀ fuel program st,
      run_program fuel program st =
        Option.map OutcomeT.toOutcome (trace_program fuel program st) := by
  intro fuel program st
  exact (run_eq_trace fuel).1 program { st with pc := 0 }

/-- C2, counterexample to the claim as stated: on the program `[]`
started from the machine's pristine state (current cell zero), the code
reports 1 cycle — the `Sub` branch falls through to the shared
`cycles += 1` — while a counter in which the nested-program operator
absorbs no separate count would report 0. -/
theorem c2_counterexample :
    cyclesOf (run_program 2 [Operator.Sub []] (Machine.new [])) = some 1 ∧
    cyclesOf (claimRun_program 2 [Operator.Sub []] (Machine.new [])) = some 0 :=
  ⟨rfl, rfl⟩

/-- `[` pushes the current context and starts an empty one. -/
theorem parseStep_open (stack : List (List Operator)) (ops : List Operator) :
    parseStep (stack, ops) '[' = .ok (ops :: stack, []) := rfl

/-- `]` with an empty stack is the unmatched-closing-bracket error. -/
theorem parseStep_close_nil (ops : List Operator) :
    parseStep (([] : List (List Operator)), ops) ']' = .error "Unmatched `]`." := rfl

/-- `]` with a saved context pops it and appends the collected `Sub`. -/
theorem parseStep_close_cons (p : List Operator) (stack : List (List Operator))
    (ops : List Operator) :
    parseStep (p :: stack, ops) ']' = .ok (stack, p ++ [.Sub ops]) := rfl

/-- Any character other than the two brackets is appended to the
current context as whatever operator `from_str` maps it to. -/
theorem parseStep_other (stack : List (List Operator)) (ops : List Operator)
    (c : Char) (h1 : c ≠ '[') (h2 : c ≠ ']') :
    parseStep (stack, ops) c = .ok (stack, ops ++ [Operator.from_str c]) := by
  unfold parseStep Operator.from_str
  split_ifs <;> simp_all

/-- `parseChars` on an empty source returns the state unchanged. -/
theorem parseChars_nil (acc : PCtx) : parseChars [] acc = .ok acc := rfl

/-- `parseChars` consumes one character at a time. -/
theorem parseChars_cons (c : Char) (cs : List Char) (acc : PCtx) :
    parseChars (c :: cs) acc =
      match parseStep acc c with
      | .error e => .error e
      | .ok acc2 => parseChars cs acc2 := rfl

/-- A comment character maps to the `Nop` carrying its token. -/
theorem from_str_comment {c : Char} (h : isComment c = true) :
    Operator.from_str c = .Nop [c] := by
  simp only [isComment, Bool.not_eq_eq_eq_not, Bool.not_true, Bool.or_eq_false_iff,
    decide_eq_false_iff_not] at h
  obtain ⟨⟨⟨⟨⟨⟨⟨h1, h2⟩, h3⟩, h4⟩, h5⟩, h6⟩, h7⟩, h8⟩ := h
  unfold Operator.from_str
  split_ifs <;> simp_all

/-- Every non-bracket character maps to a well-formed operator. -/
theorem wfOp_from_str {c : Char} (h1 : c ≠ '[') (h2 : c ≠ ']') :
    wfOp (Operator.from_str c) = true := by
  unfold Operator.from_str
  split_ifs <;> simp_all [wfOp, isComment]

/-- `wfOps` distributes over concatenation. -/
theorem wfOps_append (xs ys : List Operator) :
    wfOps (xs ++ ys) = (wfOps xs && wfOps ys) := by
  induction xs with
  | nil => simp [wfOps]
  | cons x xs ih => simp [wfOps, ih, Bool.and_assoc]

/-- The parser loop, related to the classic bracket scan: with the
depth equal to the height of the open-context stack, a balanced rest of
input drains the stack and succeeds, an unmatched `]` surfaces the
closing-bracket error, and an unmatched `[` leaves a non-empty stack. -/
theorem parseChars_brackets :
    ∀ (cs : List Char) (stack : List (List Operator)) (ops : List Operator),
      (checkBrackets cs stack.length = .balanced →
        ∃ ops2, parseChars cs (stack, ops) = .ok ([], ops2)) ∧
      (checkBrackets cs stack.length = .extraClose →
        parseChars cs (stack, ops) = .error "Unmatched `]`.") ∧
      (checkBrackets cs stack.length = .extraOpen →
        ∃ stack2 ops2, parseChars cs (stack, ops) = .ok (stack2, ops2) ∧ stack2 ≠ []) := by
  intro cs
  induction cs with
  | nil =>
    intro stack ops
    cases stack with
    | nil =>
      refine ⟨fun _ => ⟨ops, rfl⟩, fun h => ?_, fun h => ?_⟩ <;>
        simp [checkBrackets] at h
    | cons p rest =>
      refine ⟨fun h => ?_, fun h => ?_, fun _ => ⟨p :: rest, ops, rfl, by simp⟩⟩ <;>
        simp [checkBrackets] at h
  | cons c cs ih =>
    intro stack ops
    by_cases hc1 : c = '['
    · subst hc1
      have hcb : ∀ d, checkBrackets ('[' :: cs) d = checkBrackets cs (d + 1) := by
        intro d
        simp [checkBrackets]
      have hpc : parseChars ('[' :: cs) (stack, ops) = parseChars cs (ops :: stack, []) := by
        rw [parseChars_cons, parseStep_open]
      rw [hcb, hpc]
      have h2 := ih (ops :: stack) []
      rw [List.length_cons] at h2
      exact h2
    · by_cases hc2 : c = ']'
      · subst hc2
        cases stack with
        | nil =>
          have hcb : checkBrackets (']' :: cs) 0 = .extraClose := by
            simp [checkBrackets]
          have hpc : parseChars (']' :: cs) (([] : List (List Operator)), ops) =
              .error "Unmatched `]`." := by
            rw [parseChars_cons, parseStep_close_nil]
          refine ⟨fun h => ?_, fun _ => hpc, fun h => ?_⟩ <;>
            · rw [List.length_nil, hcb] at h
              cases h
        | cons p rest =>
          have hcb : checkBrackets (']' :: cs) (p :: rest).length =
              checkBrackets cs rest.length := by
            simp [checkBrackets]
          have hpc : parseChars (']' :: cs) (p :: rest, ops) =
              parseChars cs (rest, p ++ [.Sub ops]) := by
            rw [parseChars_cons, parseStep_close_cons]
          rw [hcb, hpc]
          exact ih rest (p ++ [.Sub ops])
      · have hcb : checkBrackets (c :: cs) stack.length = checkBrackets cs stack.length := by
          simp [checkBrackets, hc1, hc2]
        have hpc : parseChars (c :: cs) (stack, ops) =
            parseChars cs (stack, ops ++ [Operator.from_str c]) := by
          rw [parseChars_cons, parseStep_other stack ops c hc1 hc2]
        rw [hcb, hpc]
        exact ih stack (ops ++ [Operator.from_str c])

/-- C3: parsing succeeds exactly when the `[`/`]` characters pass the
classic balanced-parenthesis check; a `]` with no open loop fails with
the unmatched-closing-bracket error, and end of input with open loops
left fails with the unmatched-opening-bracket error — in both cases an
error is returned, not a program. -/
theorem c3_bracket_matching :
    ∀ source : List Char,
      ((Ast.parse_str source).isOk = true ↔ checkBrackets source 0 = .balanced) ∧
      (checkBrackets source 0 = .extraClose →
        Ast.parse_str source = .error "Unmatched `]`.") ∧
      (checkBrackets source 0 = .extraOpen →
        Ast.parse_str source = .error "Unmatched `[`.") := by
  intro source
  obtain ⟨hbal, hclose, hopen⟩ := parseChars_brackets source [] []
  refine ⟨⟨?_, ?_⟩, ?_, ?_⟩
  · intro hok
    cases hcb : checkBrackets source 0 with
    | balanced => rfl
    | extraClose =>
      unfold Ast.parse_str at hok
      rw [hclose hcb] at hok
      cases hok
    | extraOpen =>
      obtain ⟨stack2, ops2, hpc, hne⟩ := hopen hcb
      unfold Ast.parse_str at hok
      rw [hpc] at hok
      cases stack2 with
      | nil => exact absurd rfl hne
      | cons a b => cases hok
  · intro hcb
    obtain ⟨ops2, hpc⟩ := hbal hcb
    unfold Ast.parse_str
    rw [hpc]
    rfl
  · intro h
    unfold Ast.parse_str
    rw [hclose h]
  · intro h
    obtain ⟨stack2, ops2, hpc, hne⟩ := hopen h
    unfold Ast.parse_str
    rw [hpc]
    cases stack2 with
    | nil => exact absurd rfl hne
    | cons a b => rfl

/-- Witness for C3: a lone `]` gives the closing error, a lone `[` the
opening error, and `+[-]` parses. -/
theorem c3_witness :
    Ast.parse_str [']'] = .error "Unmatched `]`." ∧
    Ast.parse_str ['['] = .error "Unmatched `[`." ∧
    (Ast.parse_str ['+', '[', '-', ']']).isOk = true :=
  ⟨(c3_bracket_matching [']']).2.1 (by decide),
   (c3_bracket_matching ['[']).2.2 (by decide),
   ((c3_bracket_matching ['+', '[', '-', ']']).1).mpr (by decide)⟩

/-- The parser invariant: every context on the stack and the context
being built hold only well-formed operators (no transient delimiters,
`Nop`s carrying one comment character), and parsing keeps it. -/
theorem parseChars_wf :
    ∀ (cs : List Char) (stack : List (List Operator)) (ops : List Operator),
      wfOps ops = true → (∀ l ∈ stack, wfOps l = true) →
      ∀ stack2 ops2, parseChars cs (stack, ops) = .ok (stack2, ops2) →
        wfOps ops2 = true ∧ ∀ l ∈ stack2, wfOps l = true := by
  intro cs
  induction cs with
  | nil =>
    intro stack ops hops hstack stack2 ops2 h
    rw [parseChars_nil] at h
    cases h
    exact ⟨hops, hstack⟩
  | cons c cs ih =>
    intro stack ops hops hstack stack2 ops2 h
    by_cases hc1 : c = '['
    · subst hc1
      rw [parseChars_cons, parseStep_open] at h
      refine ih (ops :: stack) [] rfl ?_ stack2 ops2 h
      intro l hl
      rcases List.mem_cons.mp hl with hl | hl
      · rw [hl]; exact hops
      · exact hstack l hl
    · by_cases hc2 : c = ']'
      · subst hc2
        cases stack with
        | nil =>
          rw [parseChars_cons, parseStep_close_nil] at h
          cases h
        | cons p rest =>
          rw [parseChars_cons, parseStep_close_cons] at h
          refine ih rest (p ++ [.Sub ops]) ?_ (fun l hl => hstack l (List.mem_cons_of_mem p hl))
            stack2 ops2 h
          rw [wfOps_append]
          have hp : wfOps p = true := hstack p (List.mem_cons_self p rest)
          have hsub : wfOps [Operator.Sub ops] = true := by
            simp [wfOps, wfOp, hops]
          rw [hp, hsub]
          rfl
      · rw [parseChars_cons, parseStep_other stack ops c hc1 hc2] at h
        refine ih stack (ops ++ [Operator.from_str c]) ?_ hstack stack2 ops2 h
        rw [wfOps_append, hops]
        simp [wfOps, wfOp_from_str hc1 hc2]

/-- A successful parse yields a well-formed operator tree. -/
theorem parse_wfOps {source : List Char} {ast : Ast}
    (h : Ast.parse_str source = .ok ast) : wfOps ast = true := by
  unfold Ast.parse_str at h
  cases hpc : parseChars source ([], []) with
  | error e => rw [hpc] at h; cases h
  | ok acc =>
    rw [hpc] at h
    rcases acc with ⟨stack, ops⟩
    cases stack with
    | nil =>
      cases h
      exact (parseChars_wf source [] [] rfl (by simp) [] ast hpc).1
    | cons p rest => cases h

mutual

/-- A well-formed operator is clean of transient delimiters. -/
theorem wfOp_opClean : ∀ op, wfOp op = true → opClean op = true
  | .Incr, _ => rfl
  | .Decr, _ => rfl
  | .Prev, _ => rfl
  | .Next, _ => rfl
  | .Put, _ => rfl
  | .Get, _ => rfl
  | .Skip, h => nomatch h
  | .Loop, h => nomatch h
  | .Nop _, _ => rfl
  | .Sub body, h => wfOps_opsClean body h

/-- A well-formed sequence is clean of transient delimiters. -/
theorem wfOps_opsClean : ∀ ops, wfOps ops = true → opsClean ops = true
  | [], _ => rfl
  | op :: rest, h => by
    simp only [wfOps, Bool.and_eq_true] at h
    simp only [opsClean, Bool.and_eq_true]
    exact ⟨wfOp_opClean op h.1, wfOps_opsClean rest h.2⟩

end

/-- C5: a successfully parsed program contains no occurrence of the
transient `Skip` (enter-loop) or `Loop` (exit-loop) operator variants,
recursively through every nested `Sub` body. -/
theorem c5_no_transient_delimiters :
    ∀ (source : List Char) (ast : Ast),
      Ast.parse_str source = .ok ast → opsClean ast = true := by
  intro source ast h
  exact wfOps_opsClean ast (parse_wfOps h)

/-- Witness for C5 on `+[-]`. -/
theorem c5_witness : opsClean [Operator.Incr, Operator.Sub [Operator.Decr]] = true :=
  c5_no_transient_delimiters ['+', '[', '-', ']']
    [Operator.Incr, Operator.Sub [Operator.Decr]] rfl

mutual

/-- Rendering one well-formed operator and parsing it back appends
exactly that operator to the current context. -/
theorem parse_show_op : ∀ op, wfOp op = true →
    ∀ (cs : List Char) (stack : List (List Operator)) (acc : List Operator),
      parseChars (Operator.show op ++ cs) (stack, acc) = parseChars cs (stack, acc ++ [op])
  | .Incr, _ => by
    intro cs stack acc
    show parseChars ('+' :: cs) (stack, acc) = _
    rw [parseChars_cons]
    have hstep : parseStep (stack, acc) '+' = .ok (stack, acc ++ [Operator.Incr]) := rfl
    rw [hstep]
  | .Decr, _ => by
    intro cs stack acc
    show parseChars ('-' :: cs) (stack, acc) = _
    rw [parseChars_cons]
    have hstep : parseStep (stack, acc) '-' = .ok (stack, acc ++ [Operator.Decr]) := rfl
    rw [hstep]
  | .Prev, _ => by
    intro cs stack acc
    show parseChars ('<' :: cs) (stack, acc) = _
    rw [parseChars_cons]
    have hstep : parseStep (stack, acc) '<' = .ok (stack, acc ++ [Operator.Prev]) := rfl
    rw [hstep]
  | .Next, _ => by
    intro cs stack acc
    show parseChars ('>' :: cs) (stack, acc) = _
    rw [parseChars_cons]
    have hstep : parseStep (stack, acc) '>' = .ok (stack, acc ++ [Operator.Next]) := rfl
    rw [hstep]
  | .Put, _ => by
    intro cs stack acc
    show parseChars ('.' :: cs) (stack, acc) = _
    rw [parseChars_cons]
    have hstep : parseStep (stack, acc) '.' = .ok (stack, acc ++ [Operator.Put]) := rfl
    rw [hstep]
  | .Get, _ => by
    intro cs stack acc
    show parseChars (',' :: cs) (stack, acc) = _
    rw [parseChars_cons]
    have hstep : parseStep (stack, acc) ',' = .ok (stack, acc ++ [Operator.Get]) := rfl
    rw [hstep]
  | .Skip, h => nomatch h
  | .Loop, h => nomatch h
  | .Nop s, h => by
    intro cs stack acc
    rcases s with _ | ⟨c, _ | ⟨d, t⟩⟩
    · exact nomatch h
    · have hc : isComment c = true := h
      show parseChars (c :: cs) (stack, acc) = _
      rw [parseChars_cons]
      have hstep : parseStep (stack, acc) c = .ok (stack, acc ++ [Operator.Nop [c]]) := by
        unfold parseStep
        rw [from_str_comment hc]
      rw [hstep]
    · exact nomatch h
  | .Sub body, h => by
    intro cs stack acc
    have hb : wfOps body = true := h
    have e : Operator.show (.Sub body) ++ cs = '[' :: (showOps body ++ (']' :: cs)) := by
      show ('[' :: (showOps body ++ [']'])) ++ cs = _
      rw [List.cons_append, List.append_assoc]
      rfl
    rw [e, parseChars_cons, parseStep_open]
    show parseChars (showOps body ++ (']' :: cs)) (acc :: stack, []) = _
    rw [parse_show_ops body hb (']' :: cs) (acc :: stack) [], List.nil_append,
      parseChars_cons, parseStep_close_cons]

/-- Rendering a well-formed sequence and parsing it back appends the
whole sequence to the current context. -/
theorem parse_show_ops : ∀ ops, wfOps ops = true →
    ∀ (cs : List Char) (stack : List (List Operator)) (acc : List Operator),
      parseChars (showOps ops ++ cs) (stack, acc) = parseChars cs (stack, acc ++ ops)
  | [], _ => by
    intro cs stack acc
    show parseChars cs (stack, acc) = _
    rw [List.append_nil]
  | op :: rest, h => by
    intro cs stack acc
    have h12 : wfOp op = true ∧ wfOps rest = true := by
      simpa [wfOps, Bool.and_eq_true] using h
    have e : showOps (op :: rest) ++ cs = Operator.show op ++ (showOps rest ++ cs) := by
      show (Operator.show op ++ showOps rest) ++ cs = _
      rw [List.append_assoc]
    rw [e, parse_show_op op h12.1, parse_show_ops rest h12.2, List.append_assoc]
    rfl

end

/-- C6: rendering a successfully parsed program back to text and
re-parsing that text succeeds and returns exactly the same operator
sequence, comments (`Nop` operators) included. -/
theorem c6_roundtrip :
    ∀ (source : List Char) (ast : Ast),
      Ast.parse_str source = .ok ast → Ast.parse_str (showOps ast) = .ok ast := by
  intro source ast h
  have hwf : wfOps ast = true := parse_wfOps h
  unfold Ast.parse_str
  have e : showOps ast = showOps ast ++ [] := by rw [List.append_nil]
  rw [e, parse_show_ops ast hwf [] [] []]
  rfl

/-- Witness for C6 on `a+[b-]c`, whose comments survive the round trip. -/
theorem c6_witness :
    Ast.parse_str (showOps [Operator.Nop ['a'], Operator.Incr,
        Operator.Sub [Operator.Nop ['b'], Operator.Decr], Operator.Nop ['c']]) =
      .ok [Operator.Nop ['a'], Operator.Incr,
        Operator.Sub [Operator.Nop ['b'], Operator.Decr], Operator.Nop ['c']] :=
  c6_roundtrip ['a', '+', '[', 'b', '-', ']', 'c']
    [Operator.Nop ['a'], Operator.Incr,
      Operator.Sub [Operator.Nop ['b'], Operator.Decr], Operator.Nop ['c']] rfl

/-- Inverting `addCycles` on a normal result. -/
theorem addCycles_ok {n : Nat} {r : Option Outcome} {c : Nat} {st2 : MState}
    (h : addCycles n r = some (.ok c st2)) :
    ∃ c2, r = some (.ok c2 st2) ∧ c = n + c2 := by
  rcases r with _ | x
  · cases h
  · rcases x with ⟨c2, st3⟩ | m | _
    · dsimp only [addCycles] at h
      cases h
      exact ⟨c2, rfl, rfl⟩
    · cases h
    · cases h

/-- Overwriting the current cell with a byte keeps all bytes bounded. -/
theorem WFbytes_writeCell {st : MState} {v : Nat} (hst : WFbytes st) (hv : v < 256) :
    WFbytes (writeCell st v) := by
  obtain ⟨hs, hi, ho⟩ := hst
  refine ⟨?_, hi, ho⟩
  intro x hx
  rcases List.mem_or_eq_of_mem_set hx with hx | rfl
  · exact hs x hx
  · exact hv

/-- A cell mutation through a byte-valued function keeps all bytes
bounded. -/
theorem WFbytes_mutate {st st2 : MState} {f : Nat → Nat} (hst : WFbytes st)
    (hf : ∀ v, v < 256 → f v < 256) (h : mutateCell st f = some st2) : WFbytes st2 := by
  unfold mutateCell at h
  cases hc : st.tape.cellGet with
  | none => rw [hc] at h; cases h
  | some v =>
    rw [hc] at h
    dsimp only at h
    cases h
    exact WFbytes_writeCell hst (hf v (hst.1 v (List.get?_mem hc)))

/-- Dropping the consumed input byte keeps all bytes bounded. -/
theorem WFbytes_tail {st : MState} (hst : WFbytes st) :
    WFbytes { st with input := st.input.tail } :=
  ⟨hst.1, fun b hb => hst.2.1 b (List.mem_of_mem_tail hb), hst.2.2⟩

/-- Execution preserves the eight-bit bound on every byte the state
holds: cells stay below 256 (so the largest representable cell value is
255), and so do the bytes read from input and appended to output. -/
theorem run_preserves_bytes : ∀ fuel,
    (∀ ops (st : MState) c st2,
      runFrom fuel ops st = some (.ok c st2) → WFbytes st → WFbytes st2) ∧
    (∀ body (st : MState) c st2,
      runLoop fuel body st = some (.ok c st2) → WFbytes st → WFbytes st2) := by
  intro fuel
  induction fuel with
  | zero =>
    constructor
    · intro ops st c st2 h
      rw [runFrom.eq_1] at h
      cases h
    · intro body st c st2 h hwf
      rw [runLoop.eq_1] at h
      cases hc : st.tape.cellGet with
      | none => rw [hc] at h; cases h
      | some v =>
        rw [hc] at h
        dsimp only at h
        by_cases hv : v = 0
        · rw [if_pos hv] at h
          cases h
          exact hwf
        · rw [if_neg hv] at h
          cases h
  | succ f ih =>
    obtain ⟨ihF, ihL⟩ := ih
    constructor
    · intro ops st c st2 h hwf
      rw [runFrom.eq_2] at h
      cases hop : ops.get? st.pc with
      | none =>
        rw [hop] at h
        cases h
        exact hwf
      | some op =>
        rw [hop] at h
        dsimp only at h
        cases op with
        | Decr =>
          cases hm : mutateCell st wrapDec with
          | none => rw [hm] at h; cases h
          | some st3 =>
            rw [hm] at h
            dsimp only at h
            obtain ⟨c2, h2, _⟩ := addCycles_ok h
            have hwf3 : WFbytes st3 :=
              WFbytes_mutate hwf (fun v _ => by unfold wrapDec; omega) hm
            exact ihF ops (advance st3) c2 st2 h2 hwf3
        | Incr =>
          cases hm : mutateCell st wrapInc with
          | none => rw [hm] at h; cases h
          | some st3 =>
            rw [hm] at h
            dsimp only at h
            obtain ⟨c2, h2, _⟩ := addCycles_ok h
            have hwf3 : WFbytes st3 :=
              WFbytes_mutate hwf (fun v _ => by unfold wrapInc; omega) hm
            exact ihF ops (advance st3) c2 st2 h2 hwf3
        | Prev =>
          obtain ⟨c2, h2, _⟩ := addCycles_ok h
          exact ihF _ _ c2 st2 h2 ⟨hwf.1, hwf.2.1, hwf.2.2⟩
        | Next =>
          obtain ⟨c2, h2, _⟩ := addCycles_ok h
          exact ihF _ _ c2 st2 h2 ⟨hwf.1, hwf.2.1, hwf.2.2⟩
        | Get =>
          cases hm : mutateCell { st with input := st.input.tail }
              fun _ => match st.input with | [] => 0 | x :: _ => x with
          | none => rw [hm] at h; cases h
          | some st3 =>
            rw [hm] at h
            dsimp only at h
            obtain ⟨c2, h2, _⟩ := addCycles_ok h
            have hwf3 : WFbytes st3 := by
              refine WFbytes_mutate (WFbytes_tail hwf) ?_ hm
              intro v _
              cases hin : st.input with
              | nil => dsimp only; decide
              | cons x r =>
                dsimp only
                exact hwf.2.1 x (by rw [hin]; exact List.mem_cons_self x r)
            exact ihF ops (advance st3) c2 st2 h2 hwf3
        | Put =>
          cases hc : st.tape.cellGet with
          | none => rw [hc] at h; cases h
          | some v =>
            rw [hc] at h
            dsimp only at h
            obtain ⟨c2, h2, _⟩ := addCycles_ok h
            refine ihF _ _ c2 st2 h2 ⟨hwf.1, hwf.2.1, ?_⟩
            intro b hb
            rcases List.mem_append.mp hb with hb | hb
            · exact hwf.2.2 b hb
            · rw [List.mem_singleton.mp hb]
              exact hwf.1 v (List.get?_mem hc)
        | Sub body =>
          dsimp only at h
          cases hl : runLoop f body st with
          | none => rw [hl] at h; cases h
          | some x =>
            rw [hl] at h
            cases x with
            | panic => cases h
            | err m => cases h
            | ok c3 st3 =>
              dsimp only at h
              obtain ⟨c2, h2, _⟩ := addCycles_ok h
              exact ihF ops _ c2 st2 h2 (ihL body st c3 st3 hl hwf)
        | Skip =>
          obtain ⟨c2, h2, _⟩ := addCycles_ok h
          exact ihF ops (advance st) c2 st2 h2 hwf
        | Loop =>
          obtain ⟨c2, h2, _⟩ := addCycles_ok h
          exact ihF ops (advance st) c2 st2 h2 hwf
        | Nop s =>
          obtain ⟨c2, h2, _⟩ := addCycles_ok h
          exact ihF ops (advance st) c2 st2 h2 hwf
    · intro body st c st2 h hwf
      rw [runLoop.eq_2] at h
      cases hc : st.tape.cellGet with
      | none => rw [hc] at h; cases h
      | some v =>
        rw [hc] at h
        dsimp only at h
        by_cases hv : v = 0
        · rw [if_pos hv] at h
          cases h
          exact hwf
        · rw [if_neg hv] at h
          cases hrf : runFrom f body { st with pc := 0 } with
          | none => rw [hrf] at h; cases h
          | some x =>
            rw [hrf] at h
            cases x with
            | panic => cases h
            | err m => cases h
            | ok c3 st3 =>
              dsimp only at h
              obtain ⟨c2, h2, _⟩ := addCycles_ok h
              refine ihL body st3 c2 st2 h2 ?_
              exact ihF body { st with pc := 0 } c3 st3 hrf ⟨hwf.1, hwf.2.1, hwf.2.2⟩

/-- C10: the machine's cells are 8-bit. Execution keeps every byte the
state holds below 256 (`WFbytes` is preserved, so 255 is the largest
cell value), the `Put` step appends exactly the full current cell value
as one output byte, the `Get` step writes exactly the next input byte
into the cell, and the cell arithmetic is arithmetic modulo 256. -/
theorem c10_u8_cells :
    (∀ fuel program (st : MState) c st2,
      run_program fuel program st = some (.ok c st2) → WFbytes st → WFbytes st2) ∧
    (∀ fuel ops (st : MState) v,
      ops.get? st.pc = some .Put → st.tape.cellGet = some v →
      runFrom (fuel + 1) ops st =
        addCycles 1 (runFrom fuel ops (advance { st with output := st.output ++ [v] }))) ∧
    (∀ fuel ops (st : MState) b r st3,
      ops.get? st.pc = some .Get → st.input = b :: r →
      mutateCell { st with input := r } (fun _ => b) = some st3 →
      runFrom (fuel + 1) ops st = addCycles 1 (runFrom fuel ops (advance st3))) ∧
    (∀ v, wrapInc v = (v + 1) % 256 ∧ wrapDec v = (v + 255) % 256) := by
  refine ⟨?_, ?_, ?_, fun v => ⟨rfl, rfl⟩⟩
  · intro fuel program st c st2 h hwf
    exact (run_preserves_bytes fuel).1 program { st with pc := 0 } c st2 h
      ⟨hwf.1, hwf.2.1, hwf.2.2⟩
  · intro fuel ops st v hop hc
    rw [runFrom_succ_put fuel hop, hc]
  · intro fuel ops st b r st3 hop hin hm
    rw [runFrom_succ_get fuel hop, hin]
    show (match mutateCell { st with input := r } (fun _ => b) with
      | none => some Outcome.panic
      | some st4 => addCycles 1 (runFrom fuel ops (advance st4))) = _
    rw [hm]

/-- Witness for C10: byte-boundedness through a trivial run, a concrete
`Put` step, a concrete `Get` step, and the modulus. -/
theorem c10_witness :
    WFbytes (⟨⟨[0], 0⟩, 0, [], [42]⟩ : MState) ∧
    runFrom 2 [Operator.Put] ⟨⟨[9], 0⟩, 0, [], []⟩ =
      addCycles 1 (runFrom 1 [Operator.Put]
        (advance { (⟨⟨[9], 0⟩, 0, [], []⟩ : MState) with output := ([] : List Nat) ++ [9] })) ∧
    runFrom 2 [Operator.Get] ⟨⟨[9], 0⟩, 0, [7], []⟩ =
      addCycles 1 (runFrom 1 [Operator.Get] (advance ⟨⟨[7], 0⟩, 0, [], []⟩)) ∧
    wrapInc 3 = (3 + 1) % 256 :=
  ⟨c10_u8_cells.1 1 [] ⟨⟨[0], 0⟩, 1, [], [42]⟩ 0 ⟨⟨[0], 0⟩, 0, [], [42]⟩ rfl
     ⟨by decide, by decide, by decide⟩,
   c10_u8_cells.2.1 1 [Operator.Put] ⟨⟨[9], 0⟩, 0, [], []⟩ 9 rfl rfl,
   c10_u8_cells.2.2.1 1 [Operator.Get] ⟨⟨[9], 0⟩, 0, [7], []⟩ 7 []
     ⟨⟨[7], 0⟩, 0, [], []⟩ rfl rfl rfl,
   (c10_u8_cells.2.2.2 3).1⟩

end BF
